import Mathlib

set_option linter.unusedSectionVars false

/-!
Shallow embedding of `archived.h`: the template class `archived<Value>`,
its nested `commit` and `version` types, and the free function
`diff_to_current`.

Representation choices:

* `storage_` is a `std::forward_list<commit>` in the source, used only
  through `push_front`, `begin`, `clear` and stable iterators.  We embed
  it as a `List (Commit M)` addressed by stable indices, with new
  commits appended at the END of the list, so that existing indices
  (the embedding of existing iterators) stay valid exactly as
  forward_list iterators stay valid under `push_front`.  Consequently
  `storage_.begin()` — the most recently pushed node — is index
  `length - 1`.
* A `commit` is `std::pair<iterator, Value>`: `first` (the successor
  iterator) becomes the index field `succ`, `second` becomes `delta`.
* A `version` stores one iterator (`archive_iterator_`), embedded as
  the index of the referenced commit; operations that return a
  `version` return that index.
* The value type `Value` is a type `M` with `+=` (addition) and value
  initialization to zero, i.e. `[AddMonoid M]`; no commutativity is
  assumed, matching the source's use of `+=` only.
* `compute_diff_to_current` is general recursion in C++; it is embedded
  with an explicit fuel argument.  Each call site passes
  `storage.length` as fuel, which is shown sufficient on every
  well-formed state (a chain step strictly increases the index).
* Reads through an iterator are embedded as `List.getElem?` lookups; a
  lookup that fails (which on well-formed states never happens for the
  indices the code dereferences) leaves the state unchanged.
-/

namespace Archived

/-- Embedding of `archived<Value>::commit`, a
`std::pair<iterator_type, Value>`: `succ` is the successor iterator
(`first`), `delta` the recorded diff (`second`). -/
structure Commit (M : Type) where
  succ : Nat
  delta : M
deriving Repr, DecidableEq

/-- Embedding of the state of an `archived<Value>` object: `storage` is
`storage_` (indices are the stable iterators), `last` is the index held
by the member `last_` (the version of the initial commit). -/
structure Archive (M : Type) where
  storage : List (Commit M)
  last : Nat
deriving Repr, DecidableEq

variable {M : Type} [AddMonoid M]

/-- Embedding of `storage_.begin()`: the most recently pushed commit,
which in the append-at-end representation is the last index. -/
def beginIdx (a : Archive M) : Nat :=
  a.storage.length - 1

/-- Embedding of `archived<Value>::is_head_commit`: an iterator
references the head commit iff the commit is its own successor
(`iterator_to_commit->first == iterator_to_commit`). -/
def is_head_commit (storage : List (Commit M)) (i : Nat) : Bool :=
  match storage[i]? with
  | some c => c.succ == i
  | none => false

/-- Embedding of `archived<Value>::compute_diff_to_current`, the
path-compressing walk.  The C++ body is

`auto next = old->first; if (!is_head_commit(next)) { compute_diff_to_current(next); old->second += next->second; old->first = next->first; }`

General recursion is rendered with a fuel parameter; callers pass
`storage.length`, which suffices on well-formed chains. -/
def compute_diff_to_current (M : Type) [AddMonoid M] :
    Nat → List (Commit M) → Nat → List (Commit M)
  | 0, storage, _ => storage
  | fuel + 1, storage, old =>
    match storage[old]? with
    | none => storage
    | some c =>
      let next := c.succ
      if is_head_commit storage next then
        storage
      else
        let st1 := compute_diff_to_current M fuel storage next
        match st1[old]?, st1[next]? with
        | some c1, some n1 =>
          st1.set old ⟨n1.succ, c1.delta + n1.delta⟩
        | _, _ => st1

/-- Embedding of `archived<Value>::create_head_commit`: push a
value-initialized commit (zero delta) and make it its own successor
(`storage_.front().first = storage_.begin()`).  In the append-at-end
representation the new node's index is the old length. -/
def create_head_commit (a : Archive M) : Archive M :=
  { a with storage := a.storage ++ [⟨a.storage.length, 0⟩] }

/-- Embedding of `archived<Value>::increment_by`: set the old head's
delta to the increment, create a new head commit, redirect the old
head's successor to the new head, and return a version referencing the
new head.  Returns the updated state together with the returned
version's index. -/
def increment_by (a : Archive M) (increment : M) : Archive M × Nat :=
  let old_head := beginIdx a
  match a.storage[old_head]? with
  | none => (a, old_head)
  | some c =>
    let a1 : Archive M := { a with storage := a.storage.set old_head ⟨c.succ, increment⟩ }
    let a2 := create_head_commit a1
    let new_head := beginIdx a2
    match a2.storage[old_head]? with
    | none => (a2, new_head)
    | some c2 =>
      (({ a2 with storage := a2.storage.set old_head ⟨new_head, c2.delta⟩ } : Archive M),
       new_head)

/-- Embedding of the free function `diff_to_current(old)`: run the
path-compressing walk from the version's stored iterator, then return
that commit's `second` (delta) field.  The mutation of the `mutable`
storage is returned as the updated archive; the read through the
iterator is an optional lookup. -/
def diff_to_current (a : Archive M) (old : Nat) : Archive M × Option M :=
  let st1 := compute_diff_to_current M a.storage.length a.storage old
  ({ a with storage := st1 }, (st1[old]?).map Commit.delta)

/-- Embedding of `archived<Value>::value`: `diff_to_current(last_)`. -/
def value (a : Archive M) : Archive M × Option M :=
  diff_to_current a a.last

/-- Embedding of `archived<Value>::reset`: clear the storage, create a
fresh head commit, set `last_` to a version of it, and return
`increment_by(initial_value)`. -/
def reset (a : Archive M) (initial_value : M) : Archive M × Nat :=
  let a1 : Archive M := { storage := [], last := a.last }
  let a2 := create_head_commit a1
  let a3 : Archive M := { a2 with last := beginIdx a2 }
  increment_by a3 initial_value

/-- Embedding of the constructor `archived(initial_value)`: member
initialization (`storage_()`, `last_()`, the default iterator embedded
as index 0) followed by `reset(initial_value)`; the constructor
discards `reset`'s returned version. -/
def construct (initial_value : M) : Archive M :=
  (reset ({ storage := [], last := 0 } : Archive M) initial_value).1

/-- Embedding of `archived<Value>::current`: a version of
`storage_.begin()`; `const`, no state change. -/
def current (a : Archive M) : Nat :=
  beginIdx a

/-- Embedding of `archived<Value>::clear_history`.  The C++ body is
`const auto current_value = value(); reset( value() );` with NO return
statement — control flows off the end of a value-returning function, so
no version is actually produced.  The state effect (two `value()` calls
followed by `reset` to the current value) is embedded faithfully; the
missing return value is embedded as `none`. -/
def clear_history (a : Archive M) : Archive M × Option Nat :=
  let r1 := value a
  let r2 := value r1.1
  match r2.2 with
  | some cv => ((reset r2.1 cv).1, none)
  | none => (r2.1, none)

/-!  Specification-level functions (not part of the source): the
abstract distance from a commit to the head along the successor chain,
and the list of commits visited on that walk.  Both use fuel in the
same way as the embedded walk. -/

/-- Sum of the deltas along the successor chain from `i` up to (but
excluding) the first self-successor commit, with fuel. -/
def distW (storage : List (Commit M)) : Nat → Nat → M
  | 0, _ => 0
  | fuel + 1, i =>
    match storage[i]? with
    | none => 0
    | some c => if c.succ = i then 0 else c.delta + distW storage fuel c.succ

/-- Abstract distance from commit `i` to the head: `distW` with the
canonical fuel `storage.length`. -/
def dist (storage : List (Commit M)) (i : Nat) : M :=
  distW storage storage.length i

/-- The list of commit indices visited walking from `i` to the first
self-successor commit (inclusive), with fuel. -/
def pathW (storage : List (Commit M)) : Nat → Nat → List Nat
  | 0, _ => []
  | fuel + 1, i =>
    match storage[i]? with
    | none => []
    | some c => if c.succ = i then [i] else i :: pathW storage fuel c.succ

/-- The walk from commit `i` to the head, with canonical fuel. -/
def path (storage : List (Commit M)) (i : Nat) : List Nat :=
  pathW storage storage.length i

/-- Well-formedness of a commit chain, as maintained by the class
invariant: the storage is nonempty; every successor index is in range;
every non-head commit's successor was created strictly later (larger
index); the most recently created commit (the last index) is its own
successor with zero delta. -/
def ChainInv (storage : List (Commit M)) : Prop :=
  0 < storage.length ∧
  ∀ i, (h : i < storage.length) →
    (storage.get ⟨i, h⟩).succ < storage.length ∧
    (i + 1 < storage.length → i < (storage.get ⟨i, h⟩).succ) ∧
    (i + 1 = storage.length →
      (storage.get ⟨i, h⟩).succ = i ∧ (storage.get ⟨i, h⟩).delta = 0)

/-- Well-formedness of an archive state: the chain invariant plus
validity of the `last_` iterator. -/
def WF (a : Archive M) : Prop :=
  ChainInv a.storage ∧ a.last < a.storage.length

instance instDecidableChainInv [DecidableEq M] (storage : List (Commit M)) :
    Decidable (ChainInv storage) := by
  unfold ChainInv
  infer_instance

instance instDecidableWF [DecidableEq M] (a : Archive M) : Decidable (WF a) := by
  unfold WF
  infer_instance

/-- Apply a sequence of increments via `increment_by`, discarding the
returned versions. -/
def run (a : Archive M) : List M → Archive M
  | [] => a
  | d :: ds => run (increment_by a d).1 ds

/-- One public operation of the API surface (besides construction):
increment, value query, current-version query, clear-history, reset,
and a diff query through some version index. -/
inductive Op (M : Type) where
  | inc : M → Op M
  | val : Op M
  | cur : Op M
  | clear : Op M
  | rst : M → Op M
  | diffq : Nat → Op M

/-- State effect of one public operation. -/
def applyOp (a : Archive M) : Op M → Archive M
  | .inc d => (increment_by a d).1
  | .val => (value a).1
  | .cur => a
  | .clear => (clear_history a).1
  | .rst w => (reset a w).1
  | .diffq s => (diff_to_current a s).1

/-- The archive state after construction with `v` followed by a
sequence of public operations. -/
def runOps (v : M) (ops : List (Op M)) : Archive M :=
  ops.foldl applyOp (construct v)

/-! ### Basic lemmas about the chain invariant and the walk measures -/

lemma lt_of_lookup {α : Type} {l : List α} {i : Nat} {c : α}
    (hc : l[i]? = some c) : i < l.length := by
  by_contra hge
  rw [List.getElem?_eq_none (by omega)] at hc
  cases hc

lemma chainInv_get {st : List (Commit M)} (h : ChainInv st) {i : Nat} {c : Commit M}
    (hc : st[i]? = some c) :
    c.succ < st.length ∧ (i + 1 < st.length → i < c.succ) ∧
      (i + 1 = st.length → c.succ = i ∧ c.delta = 0) := by
  have hi : i < st.length := lt_of_lookup hc
  have hval : st[i] = c := by
    have := List.getElem?_eq_getElem hi
    rw [hc] at this
    exact (Option.some.inj this).symm
  have hmain := h.2 i hi
  simpa [List.get_eq_getElem, hval] using hmain

lemma chainInv_of_get {st : List (Commit M)} (hlen : 0 < st.length)
    (hmain : ∀ i c, st[i]? = some c →
      c.succ < st.length ∧ (i + 1 < st.length → i < c.succ) ∧
        (i + 1 = st.length → c.succ = i ∧ c.delta = 0)) :
    ChainInv st := by
  refine ⟨hlen, fun i hi => ?_⟩
  have := hmain i (st.get ⟨i, hi⟩)
    (by rw [List.get_eq_getElem]; exact List.getElem?_eq_getElem hi)
  exact this

lemma succ_gt {st : List (Commit M)} (h : ChainInv st) {i : Nat} {c : Commit M}
    (hc : st[i]? = some c) (hs : c.succ ≠ i) : i < c.succ := by
  obtain ⟨hlt, hmid, hlast⟩ := chainInv_get h hc
  have hi : i < st.length := lt_of_lookup hc
  rcases Nat.lt_or_ge (i + 1) st.length with hx | hx
  · exact hmid hx
  · exact absurd (hlast (by omega)).1 hs

lemma head_entry {st : List (Commit M)} (h : ChainInv st) :
    st[st.length - 1]? = some ⟨st.length - 1, 0⟩ := by
  have hlen := h.1
  have hlt : st.length - 1 < st.length := by omega
  have hc : st[st.length - 1]? = some st[st.length - 1] := List.getElem?_eq_getElem hlt
  obtain ⟨h1, h2, h3⟩ := chainInv_get h hc
  obtain ⟨hsucc, hdelta⟩ := h3 (by omega)
  rw [hc]
  congr 1
  rcases hval : st[st.length - 1] with ⟨s, d⟩
  rw [hval] at hsucc hdelta
  simp only at hsucc hdelta
  rw [hsucc, hdelta]

lemma is_head_iff {st : List (Commit M)} (h : ChainInv st) (i : Nat) :
    is_head_commit st i = true ↔ i + 1 = st.length := by
  rcases hx : st[i]? with _ | c
  · have hi : st.length ≤ i := by
      by_contra hlt
      rw [List.getElem?_eq_getElem (by omega)] at hx
      cases hx
    simp only [is_head_commit, hx]
    constructor
    · intro hfalse; cases hfalse
    · intro hlen; omega
  · simp only [is_head_commit, hx, beq_iff_eq]
    have hi : i < st.length := lt_of_lookup hx
    obtain ⟨h1, h2, h3⟩ := chainInv_get h hx
    constructor
    · intro hsi
      by_contra hne
      have hx2 : i + 1 < st.length := by omega
      have := h2 hx2
      omega
    · intro hlen
      exact (h3 hlen).1

lemma distW_out {st : List (Commit M)} {i : Nat} (hi : st.length ≤ i) (f : Nat) :
    distW st f i = 0 := by
  cases f with
  | zero => rfl
  | succ f => simp [distW, List.getElem?_eq_none hi]

lemma distW_succ {st : List (Commit M)} {i : Nat} {c : Commit M}
    (hc : st[i]? = some c) (f : Nat) :
    distW st (f + 1) i = if c.succ = i then 0 else c.delta + distW st f c.succ := by
  simp [distW, hc]

lemma distW_congr {st : List (Commit M)} (h : ChainInv st) :
    ∀ k i f g, st.length - i ≤ k → st.length - i ≤ f → st.length - i ≤ g →
      distW st f i = distW st g i := by
  intro k
  induction k with
  | zero =>
    intro i f g hk _ _
    have hi : st.length ≤ i := by omega
    rw [distW_out hi, distW_out hi]
  | succ k IH =>
    intro i f g hk hf hg
    rcases Nat.lt_or_ge i st.length with hi | hi
    · obtain ⟨f1, rfl⟩ : ∃ x, f = x + 1 := ⟨f - 1, by omega⟩
      obtain ⟨g1, rfl⟩ : ∃ x, g = x + 1 := ⟨g - 1, by omega⟩
      have hc : st[i]? = some st[i] := List.getElem?_eq_getElem hi
      rw [distW_succ hc, distW_succ hc]
      by_cases hs : (st[i]).succ = i
      · simp [hs]
      · simp only [if_neg hs]
        have hgt : i < (st[i]).succ := succ_gt h hc hs
        have hlt : (st[i]).succ < st.length := (chainInv_get h hc).1
        congr 1
        exact IH (st[i]).succ f1 g1 (by omega) (by omega) (by omega)
    · rw [distW_out hi, distW_out hi]

lemma distW_eq_dist {st : List (Commit M)} (h : ChainInv st) {i f : Nat}
    (hf : st.length - i ≤ f) : distW st f i = dist st i :=
  distW_congr h st.length i f st.length (by omega) hf (by omega)

lemma dist_out {st : List (Commit M)} {i : Nat} (hi : st.length ≤ i) :
    dist st i = 0 :=
  distW_out hi _

lemma dist_unfold {st : List (Commit M)} (h : ChainInv st) {i : Nat} {c : Commit M}
    (hc : st[i]? = some c) :
    dist st i = if c.succ = i then 0 else c.delta + dist st c.succ := by
  have hi : i < st.length := lt_of_lookup hc
  have h1 : dist st i = distW st (st.length + 1) i :=
    (distW_eq_dist h (by omega)).symm
  rw [h1, distW_succ hc]
  by_cases hs : c.succ = i
  · simp [hs]
  · simp only [if_neg hs]
    rfl

lemma dist_head {st : List (Commit M)} (h : ChainInv st) :
    dist st (st.length - 1) = 0 := by
  rw [dist_unfold h (head_entry h)]
  simp

lemma pathW_out {st : List (Commit M)} {i : Nat} (hi : st.length ≤ i) (f : Nat) :
    pathW st f i = [] := by
  cases f with
  | zero => rfl
  | succ f => simp [pathW, List.getElem?_eq_none hi]

lemma pathW_succ {st : List (Commit M)} {i : Nat} {c : Commit M}
    (hc : st[i]? = some c) (f : Nat) :
    pathW st (f + 1) i = if c.succ = i then [i] else i :: pathW st f c.succ := by
  simp [pathW, hc]

lemma pathW_congr {st : List (Commit M)} (h : ChainInv st) :
    ∀ k i f g, st.length - i ≤ k → st.length - i ≤ f → st.length - i ≤ g →
      pathW st f i = pathW st g i := by
  intro k
  induction k with
  | zero =>
    intro i f g hk _ _
    have hi : st.length ≤ i := by omega
    rw [pathW_out hi, pathW_out hi]
  | succ k IH =>
    intro i f g hk hf hg
    rcases Nat.lt_or_ge i st.length with hi | hi
    · obtain ⟨f1, rfl⟩ : ∃ x, f = x + 1 := ⟨f - 1, by omega⟩
      obtain ⟨g1, rfl⟩ : ∃ x, g = x + 1 := ⟨g - 1, by omega⟩
      have hc : st[i]? = some st[i] := List.getElem?_eq_getElem hi
      rw [pathW_succ hc, pathW_succ hc]
      by_cases hs : (st[i]).succ = i
      · simp [hs]
      · simp only [if_neg hs]
        have hgt : i < (st[i]).succ := succ_gt h hc hs
        have hlt : (st[i]).succ < st.length := (chainInv_get h hc).1
        congr 1
        exact IH (st[i]).succ f1 g1 (by omega) (by omega) (by omega)
    · rw [pathW_out hi, pathW_out hi]

lemma pathW_eq_path {st : List (Commit M)} (h : ChainInv st) {i f : Nat}
    (hf : st.length - i ≤ f) : pathW st f i = path st i :=
  pathW_congr h st.length i f st.length (by omega) hf (by omega)

lemma path_unfold {st : List (Commit M)} (h : ChainInv st) {i : Nat} {c : Commit M}
    (hc : st[i]? = some c) :
    path st i = if c.succ = i then [i] else i :: path st c.succ := by
  have hi : i < st.length := lt_of_lookup hc
  have h1 : path st i = pathW st (st.length + 1) i :=
    (pathW_eq_path h (by omega)).symm
  rw [h1, pathW_succ hc]
  by_cases hs : c.succ = i
  · simp [hs]
  · simp only [if_neg hs]
    rfl

lemma path_out {st : List (Commit M)} {i : Nat} (hi : st.length ≤ i) :
    path st i = [] :=
  pathW_out hi _

lemma self_mem_path {st : List (Commit M)} (h : ChainInv st) {i : Nat}
    (hi : i < st.length) : i ∈ path st i := by
  rw [path_unfold h (List.getElem?_eq_getElem hi)]
  by_cases hs : (st[i]).succ = i <;> simp [hs]

lemma path_ge {st : List (Commit M)} (h : ChainInv st) :
    ∀ k i j, st.length - i ≤ k → j ∈ path st i → i ≤ j := by
  intro k
  induction k with
  | zero =>
    intro i j hk hj
    rw [path_out (by omega)] at hj
    cases hj
  | succ k IH =>
    intro i j hk hj
    rcases Nat.lt_or_ge i st.length with hi | hi
    · have hc : st[i]? = some st[i] := List.getElem?_eq_getElem hi
      rw [path_unfold h hc] at hj
      by_cases hs : (st[i]).succ = i
      · rw [if_pos hs] at hj
        simp at hj
        omega
      · rw [if_neg hs] at hj
        rcases List.mem_cons.1 hj with rfl | hj2
        · omega
        · have hgt : i < (st[i]).succ := succ_gt h hc hs
          have := IH (st[i]).succ j (by omega) hj2
          omega
    · rw [path_out hi] at hj
      cases hj

lemma dist_ext {st1 st2 : List (Commit M)} (h1 : ChainInv st1) (h2 : ChainInv st2)
    (hlen : st1.length = st2.length) (k : Nat)
    (hsame : ∀ j, j ≠ k → st1[j]? = st2[j]?)
    (hk : dist st1 k = dist st2 k) :
    ∀ m j, st1.length - j ≤ m → dist st1 j = dist st2 j := by
  intro m
  induction m with
  | zero =>
    intro j hm
    rw [dist_out (by omega), dist_out (by omega : st2.length ≤ j)]
  | succ m IH =>
    intro j hm
    by_cases hjk : j = k
    · rw [hjk]; exact hk
    · rcases Nat.lt_or_ge j st1.length with hj | hj
      · have hc1 : st1[j]? = some st1[j] := List.getElem?_eq_getElem hj
        have hc2 : st2[j]? = some st1[j] := by rw [← hsame j hjk]; exact hc1
        rw [dist_unfold h1 hc1, dist_unfold h2 hc2]
        by_cases hs : (st1[j]).succ = j
        · simp [hs]
        · simp only [if_neg hs]
          have hgt : j < (st1[j]).succ := succ_gt h1 hc1 hs
          congr 1
          exact IH (st1[j]).succ (by omega)
      · rw [dist_out hj, dist_out (by omega : st2.length ≤ j)]

/-! ### Unfolding lemmas for the embedded walk -/

lemma compute_out {st : List (Commit M)} {i : Nat} (hi : st.length ≤ i) (f : Nat) :
    compute_diff_to_current M f st i = st := by
  cases f with
  | zero => rfl
  | succ f => simp [compute_diff_to_current, List.getElem?_eq_none hi]

lemma compute_step_head {st : List (Commit M)} {old : Nat} {c : Commit M}
    (hc : st[old]? = some c) (fuel : Nat)
    (hh : is_head_commit st c.succ = true) :
    compute_diff_to_current M (fuel + 1) st old = st := by
  simp [compute_diff_to_current, hc, hh]

lemma compute_step_go {st : List (Commit M)} {old : Nat} {c c1 n1 : Commit M}
    (hc : st[old]? = some c) (fuel : Nat)
    (hh : is_head_commit st c.succ = false)
    (h1 : (compute_diff_to_current M fuel st c.succ)[old]? = some c1)
    (h2 : (compute_diff_to_current M fuel st c.succ)[c.succ]? = some n1) :
    compute_diff_to_current M (fuel + 1) st old =
      (compute_diff_to_current M fuel st c.succ).set old ⟨n1.succ, c1.delta + n1.delta⟩ := by
  simp [compute_diff_to_current, hc, hh, h1, h2]

/-- Full specification of one `compute_diff_to_current` call on a
well-formed chain, with fuel at least the remaining chain length:
the storage length is unchanged; entries strictly below the query index
and the head entry are untouched; the chain invariant is preserved; the
abstract distance to head of EVERY commit is preserved; and every
commit on the walk from the query index ends up pointing directly at
the head index carrying its correct cumulative delta. -/
theorem compute_spec {st : List (Commit M)} (h : ChainInv st) :
    ∀ fuel old, old < st.length → st.length - old ≤ fuel →
      (compute_diff_to_current M fuel st old).length = st.length ∧
      (∀ j, j < old → (compute_diff_to_current M fuel st old)[j]? = st[j]?) ∧
      (compute_diff_to_current M fuel st old)[st.length - 1]? = st[st.length - 1]? ∧
      ChainInv (compute_diff_to_current M fuel st old) ∧
      (∀ j, dist (compute_diff_to_current M fuel st old) j = dist st j) ∧
      (∀ j, j ∈ path st old →
        (compute_diff_to_current M fuel st old)[j]? = some ⟨st.length - 1, dist st j⟩) := by
  intro fuel
  induction fuel with
  | zero =>
    intro old hold hfuel
    omega
  | succ fuel IH =>
    intro old hold hfuel
    have hc : st[old]? = some st[old] := List.getElem?_eq_getElem hold
    rcases hhead : is_head_commit st (st[old]).succ with _ | _
    · -- the successor is not the head commit: recursive case
      have hsno : (st[old]).succ ≠ old := by
        intro heq
        rw [heq] at hhead
        have : is_head_commit st old = true := by
          simp [is_head_commit, hc, heq]
        rw [this] at hhead
        cases hhead
      have hgt : old < (st[old]).succ := succ_gt h hc hsno
      have hnlt : (st[old]).succ < st.length := (chainInv_get h hc).1
      have hnothead : (st[old]).succ + 1 ≠ st.length := by
        intro heq
        rw [(is_head_iff h _).2 heq] at hhead
        cases hhead
      have holdlt : old + 1 < st.length := by omega
      obtain ⟨ihlen, ihframe, ihhead, ihinv, ihdist, ihpath⟩ :=
        IH (st[old]).succ hnlt (by omega)
      have hst1old : (compute_diff_to_current M fuel st (st[old]).succ)[old]? = some st[old] := by
        rw [ihframe old hgt]; exact hc
      have hst1next : (compute_diff_to_current M fuel st (st[old]).succ)[(st[old]).succ]? =
          some ⟨st.length - 1, dist st (st[old]).succ⟩ :=
        ihpath _ (self_mem_path h hnlt)
      rw [compute_step_go hc fuel hhead hst1old hst1next]
      set st1 := compute_diff_to_current M fuel st (st[old]).succ with hst1
      set e : Commit M := ⟨st.length - 1, (st[old]).delta + dist st (st[old]).succ⟩ with he
      have hdist_old : dist st old = (st[old]).delta + dist st (st[old]).succ :=
        by rw [dist_unfold h hc, if_neg hsno]
      have hlen2 : (st1.set old e).length = st.length := by
        rw [List.length_set, ihlen]
      have hinv2 : ChainInv (st1.set old e) := by
        apply chainInv_of_get (by omega)
        intro i ci hci
        by_cases hio : i = old
        · rw [hio, List.getElem?_set_eq_of_lt e (by omega)] at hci
          rcases Option.some.inj hci with rfl
          have hesucc : e.succ = st.length - 1 := by rw [he]
          refine ⟨by omega, fun _ => by omega, fun hx => absurd hx (by omega)⟩
        · rw [List.getElem?_set_ne (fun x => hio x.symm)] at hci
          obtain ⟨k1, k2, k3⟩ := chainInv_get ihinv hci
          rw [hlen2]
          rw [ihlen] at k1 k2 k3
          exact ⟨k1, k2, k3⟩
      have hdist1_old : dist st1 old = (st[old]).delta + dist st (st[old]).succ := by
        rw [dist_unfold ihinv hst1old, if_neg hsno, ihdist]
      have hdist2_old : dist (st1.set old e) old = (st[old]).delta + dist st (st[old]).succ := by
        have hce : (st1.set old e)[old]? = some e :=
          List.getElem?_set_eq_of_lt e (by omega)
        rw [dist_unfold hinv2 hce, if_neg (by simp [he]; omega)]
        have hdh : dist (st1.set old e) e.succ = 0 := by
          have := dist_head hinv2
          rw [hlen2] at this
          exact this
        rw [hdh, add_zero]
      have hdist2 : ∀ j, dist (st1.set old e) j = dist st j := by
        intro j
        have hext := dist_ext ihinv hinv2 (by omega) old
          (fun k hk => (List.getElem?_set_ne (fun x => hk x.symm)).symm)
          (by rw [hdist1_old, hdist2_old]) st1.length j (by omega)
        rw [← hext, ihdist]
      refine ⟨hlen2, ?_, ?_, hinv2, hdist2, ?_⟩
      · intro j hj
        rw [List.getElem?_set_ne (by omega), ihframe j (by omega)]
      · rw [List.getElem?_set_ne (by omega), ihhead]
      · intro j hj
        rw [path_unfold h hc, if_neg hsno] at hj
        rcases List.mem_cons.1 hj with rfl | hj2
        · rw [List.getElem?_set_eq_of_lt e (by omega), he, hdist_old]
        · have hjge : (st[old]).succ ≤ j := path_ge h st.length _ j (by omega) hj2
          rw [List.getElem?_set_ne (by omega), ihpath j hj2]
    · -- the successor is the head commit: base case, no modification
      rw [compute_step_head hc fuel hhead]
      refine ⟨rfl, fun j _ => rfl, rfl, h, fun j => rfl, ?_⟩
      have hnext_head : (st[old]).succ + 1 = st.length := (is_head_iff h _).1 hhead
      intro j hj
      by_cases hso : (st[old]).succ = old
      · have hold_head : old + 1 = st.length := by omega
        rw [path_unfold h hc, if_pos hso] at hj
        rcases List.mem_singleton.1 hj with rfl
        rw [hc]
        obtain ⟨hs0, hd0⟩ := (chainInv_get h hc).2.2 hold_head
        have hdz : dist st j = 0 := by
          rw [dist_unfold h hc, if_pos hso]
        rw [hdz]
        congr 1
        rcases hval : st[j] with ⟨s, d⟩
        rw [hval] at hs0 hd0
        simp only at hs0 hd0
        simp [hs0, hd0]
        omega
      · rw [path_unfold h hc, if_neg hso] at hj
        have hhead_path : path st (st[old]).succ = [(st[old]).succ] := by
          have hhc : st[(st[old]).succ]? = some ⟨(st[old]).succ, 0⟩ := by
            have := head_entry h
            rw [show st.length - 1 = (st[old]).succ by omega] at this
            exact this
          rw [path_unfold h hhc, if_pos rfl]
        rcases List.mem_cons.1 hj with rfl | hj2
        · rw [hc]
          have hdj : dist st j = (st[j]).delta := by
            rw [dist_unfold h hc, if_neg hso]
            have : dist st (st[j]).succ = 0 := by
              have := dist_head h
              rw [show st.length - 1 = (st[j]).succ by omega] at this
              exact this
            rw [this, add_zero]
          rw [hdj]
          congr 1
          rcases hval : st[j] with ⟨s, d⟩
          have : s = st.length - 1 := by
            rw [hval] at hnext_head
            simp only at hnext_head
            omega
          simp [this]
        · rw [hhead_path] at hj2
          rcases List.mem_singleton.1 hj2 with rfl
          have hdz : dist st (st[old]).succ = 0 := by
            have := dist_head h
            rw [show st.length - 1 = (st[old]).succ by omega] at this
            exact this
          rw [hdz]
          have := head_entry h
          rw [show st.length - 1 = (st[old]).succ by omega] at this
          rw [this]
          congr 2
          omega


/-! ### Operation-level lemmas -/

lemma increment_eq {a : Archive M} (h : WF a) (d : M) :
    increment_by a d =
      ({ storage :=
           (a.storage.set (a.storage.length - 1) ⟨a.storage.length - 1, d⟩ ++
             [(⟨a.storage.length, 0⟩ : Commit M)]).set (a.storage.length - 1)
             ⟨a.storage.length, d⟩,
         last := a.last }, a.storage.length) := by
  obtain ⟨hinv, hlast⟩ := h
  have hn : 0 < a.storage.length := hinv.1
  have h1 : a.storage[a.storage.length - 1]? = some ⟨a.storage.length - 1, 0⟩ :=
    head_entry hinv
  have h2 : (a.storage.set (a.storage.length - 1) ⟨a.storage.length - 1, d⟩ ++
      [(⟨a.storage.length, 0⟩ : Commit M)])[a.storage.length - 1]? =
      some ⟨a.storage.length - 1, d⟩ := by
    rw [List.getElem?_append]
    rw [if_pos (by rw [List.length_set]; omega)]
    exact List.getElem?_set_eq_of_lt _ (by omega)
  simp only [increment_by, beginIdx, create_head_commit, List.length_set,
    List.length_append, List.length_singleton, h1, h2, Nat.add_sub_cancel]

lemma increment_state {a : Archive M} (h : WF a) (d : M) :
    (increment_by a d).1.storage.length = a.storage.length + 1 ∧
    (increment_by a d).2 = a.storage.length ∧
    (increment_by a d).1.last = a.last ∧
    (∀ j, j < a.storage.length - 1 →
      (increment_by a d).1.storage[j]? = a.storage[j]?) ∧
    (increment_by a d).1.storage[a.storage.length - 1]? =
      some ⟨a.storage.length, d⟩ ∧
    (increment_by a d).1.storage[a.storage.length]? = some ⟨a.storage.length, 0⟩ ∧
    WF (increment_by a d).1 ∧
    (∀ j, j < a.storage.length →
      dist (increment_by a d).1.storage j = dist a.storage j + d) := by
  obtain ⟨hinv, hlast⟩ := h
  have hn : 0 < a.storage.length := hinv.1
  rw [increment_eq ⟨hinv, hlast⟩ d]
  set n := a.storage.length with hndef
  set st2 := (a.storage.set (n - 1) ⟨n - 1, d⟩ ++
    [(⟨n, 0⟩ : Commit M)]).set (n - 1) ⟨n, d⟩ with hst2
  have hlen2 : st2.length = n + 1 := by
    rw [hst2, List.length_set, List.length_append, List.length_set,
      List.length_singleton]
  have hmid : st2[n - 1]? = some ⟨n, d⟩ := by
    rw [hst2]
    exact List.getElem?_set_eq_of_lt _ (by rw [List.length_append, List.length_set]; omega)
  have htop : st2[n]? = some ⟨n, 0⟩ := by
    rw [hst2, List.getElem?_set_ne (by omega)]
    rw [List.getElem?_append_right (by rw [List.length_set])]
    simp [List.length_set]
  have hlow : ∀ j, j < n - 1 → st2[j]? = a.storage[j]? := by
    intro j hj
    rw [hst2, List.getElem?_set_ne (by omega)]
    rw [List.getElem?_append]
    rw [if_pos (by rw [List.length_set]; omega)]
    rw [List.getElem?_set_ne (by omega)]
  have hinv2 : ChainInv st2 := by
    apply chainInv_of_get (by omega)
    intro i ci hci
    have hibound : i < n + 1 := by
      have := lt_of_lookup hci
      omega
    rcases Nat.lt_trichotomy i (n - 1) with hi | hi | hi
    · rw [hlow i hi] at hci
      obtain ⟨k1, k2, k3⟩ := chainInv_get hinv hci
      refine ⟨by omega, fun _ => k2 (by omega), fun hx => absurd hx (by omega)⟩
    · rw [hi, hmid] at hci
      rcases Option.some.inj hci with rfl
      refine ⟨?_, fun _ => ?_, fun hx => absurd hx (by omega)⟩
      · show n < st2.length
        omega
      · show i < n
        omega
    · have hieq : i = n := by omega
      rw [hieq, htop] at hci
      rcases Option.some.inj hci with rfl
      refine ⟨?_, fun hx => absurd hx (by omega), fun _ => ⟨?_, rfl⟩⟩
      · show n < st2.length
        omega
      · show n = i
        omega
  have hdist_shift : ∀ k j, n - j ≤ k → j < n → dist st2 j = dist a.storage j + d := by
    intro k
    induction k with
    | zero => intro j hk hj; omega
    | succ k IH =>
      intro j hk hj
      rcases Nat.lt_or_ge j (n - 1) with hjlow | hjhigh
      · have hc : a.storage[j]? = some a.storage[j] := List.getElem?_eq_getElem (by omega)
        have hc2 : st2[j]? = some a.storage[j] := by rw [hlow j hjlow]; exact hc
        have hsno : (a.storage[j]).succ ≠ j := by
          obtain ⟨k1, k2, k3⟩ := chainInv_get hinv hc
          have := k2 (by omega)
          omega
        have hgt : j < (a.storage[j]).succ := succ_gt hinv hc hsno
        have hlt : (a.storage[j]).succ < n := (chainInv_get hinv hc).1
        rw [dist_unfold hinv2 hc2, if_neg hsno, dist_unfold hinv hc, if_neg hsno]
        rw [IH (a.storage[j]).succ (by omega) (by omega), add_assoc]
      · have hjeq : j = n - 1 := by omega
        rw [hjeq]
        have hsno : (⟨n, d⟩ : Commit M).succ ≠ n - 1 := by simp; omega
        rw [dist_unfold hinv2 hmid, if_neg hsno]
        have hdh2 : dist st2 n = 0 := by
          have := dist_head hinv2
          rw [hlen2] at this
          simpa using this
        have hdh1 : dist a.storage (n - 1) = 0 := dist_head hinv
        simp only [hdh2, add_zero, hdh1, zero_add]
  refine ⟨hlen2, rfl, rfl, hlow, hmid, htop, ⟨hinv2, by simp only [hlen2]; omega⟩, ?_⟩
  intro j hj
  exact hdist_shift n j (by omega) hj

lemma reset_eq (a : Archive M) (v : M) :
    reset a v = ({ storage := [⟨1, v⟩, ⟨1, 0⟩], last := 0 }, 1) := rfl

lemma construct_eq (v : M) :
    construct v = ({ storage := [⟨1, v⟩, ⟨1, 0⟩], last := 0 } : Archive M) := rfl

lemma chainInv_fresh (v : M) : ChainInv ([⟨1, v⟩, ⟨1, 0⟩] : List (Commit M)) := by
  apply chainInv_of_get (by simp)
  intro i c hci
  have hi : i < 2 := by simpa using lt_of_lookup hci
  interval_cases i
  · simp at hci
    rcases hci with rfl
    simp
  · simp at hci
    rcases hci with rfl
    simp

lemma WF_construct (v : M) : WF (construct v) := by
  rw [construct_eq]
  exact ⟨chainInv_fresh v, by simp⟩

lemma dist_fresh (v : M) : dist ([⟨1, v⟩, ⟨1, 0⟩] : List (Commit M)) 0 = v := by
  simp [dist, distW]

theorem diff_spec {a : Archive M} (h : WF a) (s : Nat) :
    (diff_to_current a s).1.storage.length = a.storage.length ∧
    (diff_to_current a s).1.last = a.last ∧
    WF (diff_to_current a s).1 ∧
    (∀ j, dist (diff_to_current a s).1.storage j = dist a.storage j) ∧
    (diff_to_current a s).2 =
      if s < a.storage.length then some (dist a.storage s) else none := by
  rcases Nat.lt_or_ge s a.storage.length with hs | hs
  · obtain ⟨l1, l2, l3, l4, l5, l6⟩ := compute_spec h.1 a.storage.length s hs (by omega)
    have hres := l6 s (self_mem_path h.1 hs)
    refine ⟨l1, rfl, ⟨l4, ?_⟩, l5, ?_⟩
    · show a.last < _
      have := h.2
      simp only [diff_to_current]
      omega
    · rw [if_pos hs]
      simp [diff_to_current, hres]
  · have hout : compute_diff_to_current M a.storage.length a.storage s = a.storage :=
      compute_out hs _
    refine ⟨by simp [diff_to_current, hout], rfl, ?_, ?_, ?_⟩
    · simp only [diff_to_current, hout]
      exact h
    · intro j
      simp [diff_to_current, hout]
    · rw [if_neg (by omega)]
      simp [diff_to_current, hout, List.getElem?_eq_none hs]

theorem value_spec {a : Archive M} (h : WF a) :
    (value a).1.storage.length = a.storage.length ∧
    (value a).1.last = a.last ∧
    WF (value a).1 ∧
    (∀ j, dist (value a).1.storage j = dist a.storage j) ∧
    (value a).2 = some (dist a.storage a.last) := by
  obtain ⟨l1, l2, l3, l4, l5⟩ := diff_spec h a.last
  refine ⟨l1, l2, l3, l4, ?_⟩
  show (diff_to_current a a.last).2 = some (dist a.storage a.last)
  rw [l5, if_pos h.2]

theorem clear_spec {a : Archive M} (h : WF a) :
    (clear_history a).1 = construct (dist a.storage a.last) ∧
    (clear_history a).2 = none := by
  obtain ⟨v1, v2, v3, v4, v5⟩ := value_spec h
  obtain ⟨w1, w2, w3, w4, w5⟩ := value_spec v3
  have hval2 : (value (value a).1).2 = some (dist a.storage a.last) := by
    rw [w5, v2, v4]
  simp only [clear_history, hval2]
  constructor
  · rw [reset_eq, construct_eq]
  · trivial

lemma run_append (a : Archive M) (xs ys : List M) :
    run a (xs ++ ys) = run (run a xs) ys := by
  induction xs generalizing a with
  | nil => simp [run]
  | cons x xs IH => simp [run, IH]

theorem run_spec {a : Archive M} (h : WF a) (ds : List M) :
    WF (run a ds) ∧
    (run a ds).storage.length = a.storage.length + ds.length ∧
    (run a ds).last = a.last ∧
    (∀ j, j < a.storage.length →
      dist (run a ds).storage j = dist a.storage j + ds.sum) := by
  induction ds generalizing a with
  | nil =>
    refine ⟨h, by simp [run], rfl, ?_⟩
    intro j hj
    simp [run, add_zero]
  | cons d ds IH =>
    obtain ⟨i1, i2, i3, i4, i5, i6, i7, i8⟩ := increment_state h d
    obtain ⟨w1, w2, w3, w4⟩ := IH i7
    refine ⟨w1, ?_, ?_, ?_⟩
    · show (run (increment_by a d).1 ds).storage.length = _
      rw [w2, i1, List.length_cons]
      omega
    · show (run (increment_by a d).1 ds).last = _
      rw [w3, i3]
    · intro j hj
      show dist (run (increment_by a d).1 ds).storage j = _
      rw [w4 j (by omega), i8 j hj, List.sum_cons, add_assoc]

lemma increment_returns_current (b : Archive M) (d : M) :
    (increment_by b d).2 = current (increment_by b d).1 := by
  rcases hb : b.storage[b.storage.length - 1]? with _ | c
  · simp [increment_by, beginIdx, current, hb]
  · have hlt : b.storage.length - 1 < b.storage.length := lt_of_lookup hb
    have h2 : (b.storage.set (b.storage.length - 1) ⟨c.succ, d⟩ ++
        [(⟨b.storage.length, 0⟩ : Commit M)])[b.storage.length - 1]? =
        some ⟨c.succ, d⟩ := by
      rw [List.getElem?_append]
      rw [if_pos (by rw [List.length_set]; omega)]
      exact List.getElem?_set_eq_of_lt _ (by omega)
    simp [increment_by, create_head_commit, current, beginIdx, hb, h2,
      List.length_set, List.length_append]


/-! ### Well-formedness preservation across the public API -/

lemma WF_reset (a : Archive M) (w : M) : WF (reset a w).1 := by
  rw [reset_eq]
  exact ⟨chainInv_fresh w, by simp⟩

lemma WF_clear {a : Archive M} (h : WF a) : WF (clear_history a).1 := by
  rw [(clear_spec h).1]
  exact WF_construct _

lemma WF_applyOp {a : Archive M} (h : WF a) (op : Op M) : WF (applyOp a op) := by
  cases op with
  | inc d => exact (increment_state h d).2.2.2.2.2.2.1
  | val => exact (value_spec h).2.2.1
  | cur => exact h
  | clear => exact WF_clear h
  | rst w => exact WF_reset a w
  | diffq s => exact (diff_spec h s).2.2.1

lemma WF_foldl {a : Archive M} (h : WF a) (ops : List (Op M)) :
    WF (ops.foldl applyOp a) := by
  induction ops generalizing a with
  | nil => exact h
  | cons op ops IH => exact IH (WF_applyOp h op)

lemma value_fresh (w : M) :
    (value ({ storage := [⟨1, w⟩, ⟨1, 0⟩], last := 0 } : Archive M)).2 = some w := by
  have hwf : WF ({ storage := [⟨1, w⟩, ⟨1, 0⟩], last := 0 } : Archive M) := by
    rw [← construct_eq]
    exact WF_construct w
  obtain ⟨_, _, _, _, v5⟩ := value_spec hwf
  rw [v5]
  simp only [dist_fresh]

/-! ### The claims -/

/-- C1: for every initial value `v` and increments `d1..dk` applied via
`increment_by`, a Version captured after the first `i` increments —
equivalently via `current()` at that point or via the Version returned
by the `i`-th `increment_by`, which coincide — satisfies
`diff_to_current(s) = d(i+1) + ... + dk` (the sum of the remaining
increments; `0` when `i = k`). -/
theorem claim_snapshot_diff (v : M) (ds : List M) (i : Nat) (hi : i ≤ ds.length) :
    (diff_to_current (run (run (construct v) (ds.take i)) (ds.drop i))
        (current (run (construct v) (ds.take i)))).2 = some (ds.drop i).sum ∧
    (1 ≤ i →
      (increment_by (run (construct v) (ds.take (i - 1))) (ds.getD (i - 1) 0)).2 =
        current (run (construct v) (ds.take i))) := by
  constructor
  · have h0 : WF (construct v) := WF_construct v
    obtain ⟨w1, w2, w3, w4⟩ := run_spec h0 (ds.take i)
    have hcur : current (run (construct v) (ds.take i)) =
        (run (construct v) (ds.take i)).storage.length - 1 := rfl
    have hlen1 : 0 < (run (construct v) (ds.take i)).storage.length := w1.1.1
    have hhead : dist (run (construct v) (ds.take i)).storage
        (current (run (construct v) (ds.take i))) = 0 := by
      rw [hcur]
      exact dist_head w1.1
    obtain ⟨u1, u2, u3, u4⟩ := run_spec w1 (ds.drop i)
    have hslt : current (run (construct v) (ds.take i)) <
        (run (construct v) (ds.take i)).storage.length := by
      rw [hcur]; omega
    have hdist : dist (run (run (construct v) (ds.take i)) (ds.drop i)).storage
        (current (run (construct v) (ds.take i))) = (ds.drop i).sum := by
      rw [u4 _ hslt, hhead, zero_add]
    obtain ⟨d1, d2, d3, d4, d5⟩ := diff_spec u1 (current (run (construct v) (ds.take i)))
    rw [d5, if_pos (by omega), hdist]
  · intro hi1
    obtain ⟨i1, rfl⟩ : ∃ x, i = x + 1 := ⟨i - 1, by omega⟩
    have hi1lt : i1 < ds.length := by omega
    have htake : ds.take (i1 + 1) = ds.take i1 ++ [ds.getD i1 0] := by
      rw [List.take_succ]
      congr 1
      rw [List.getElem?_eq_getElem hi1lt]
      simp [List.getD, List.getElem?_eq_getElem hi1lt]
    rw [show i1 + 1 - 1 = i1 from rfl, htake, run_append]
    have hrun1 : run (run (construct v) (ds.take i1)) [ds.getD i1 0] =
        (increment_by (run (construct v) (ds.take i1)) (ds.getD i1 0)).1 := rfl
    rw [hrun1]
    exact increment_returns_current _ _

/-- C1 witness: `v = 13`, `ds = [3, 4, 7]`, `i = 1`. -/
theorem claim_snapshot_diff_witness :
    (1 ≤ ([3, 4, 7] : List Int).length) ∧
    (diff_to_current (run (run (construct (13 : Int)) (([3, 4, 7] : List Int).take 1))
        (([3, 4, 7] : List Int).drop 1))
        (current (run (construct (13 : Int)) (([3, 4, 7] : List Int).take 1)))).2 =
      some (([3, 4, 7] : List Int).drop 1).sum ∧
    (increment_by (run (construct (13 : Int)) (([3, 4, 7] : List Int).take 0))
        (([3, 4, 7] : List Int).getD 0 0)).2 =
      current (run (construct (13 : Int)) (([3, 4, 7] : List Int).take 1)) :=
  ⟨by decide, (claim_snapshot_diff 13 [3, 4, 7] 1 (by decide)).1,
    (claim_snapshot_diff 13 [3, 4, 7] 1 (by decide)).2 (by decide)⟩

/-- C2: `value()` after applying `d1..dk` from initial value `v` equals
`v + d1 + ... + dk`; and for a single `increment_by(d)` on any
well-formed archive, `value()` observed immediately after equals
`value()` observed before, plus `d`. -/
theorem claim_increment_accumulation (v : M) (ds : List M) :
    (value (run (construct v) ds)).2 = some (v + ds.sum) ∧
    ∀ (a : Archive M) (d : M), WF a →
      (value (increment_by a d).1).2 = (value a).2.map (fun x => x + d) := by
  constructor
  · have h0 : WF (construct v) := WF_construct v
    obtain ⟨w1, w2, w3, w4⟩ := run_spec h0 ds
    obtain ⟨v1, v2, v3, v4, v5⟩ := value_spec w1
    rw [v5, w3]
    have hlast0 : (construct v).last = 0 := by rw [construct_eq]
    have hlen0 : 0 < (construct v).storage.length := (WF_construct v).1.1
    rw [hlast0, w4 0 hlen0]
    rw [construct_eq]
    simp only [dist_fresh]
  · intro a d h
    obtain ⟨i1, i2, i3, i4, i5, i6, i7, i8⟩ := increment_state h d
    obtain ⟨p1, p2, p3, p4, p5⟩ := value_spec i7
    obtain ⟨q1, q2, q3, q4, q5⟩ := value_spec h
    rw [p5, q5, i3, i8 a.last h.2]
    rfl

/-- C2 witness: accumulation at `v = 13`, `ds = [3, 4]`; single-step
increment at the archive `construct 5` with `d = 7`. -/
theorem claim_increment_accumulation_witness :
    WF (construct (5 : Int)) ∧
    (value (run (construct (13 : Int)) ([3, 4] : List Int))).2 =
      some (13 + ([3, 4] : List Int).sum) ∧
    (value (increment_by (construct (5 : Int)) 7).1).2 =
      (value (construct (5 : Int))).2.map (fun x => x + 7) :=
  ⟨by decide, (claim_increment_accumulation 13 [3, 4]).1,
    (claim_increment_accumulation 13 [3, 4]).2 (construct 5) 7 (by decide)⟩

/-- C3 counterexample: a Version captured via `current()` before a
`reset` is, when queried afterwards, answered with a VALUE (the stale
index is re-read against the new chain) — no error of any kind is
raised, contradicting the claim that such a query fails with an
explicit, catchable error. -/
theorem claim_invalid_version_counterexample :
    (diff_to_current (reset (construct (13 : Int)) 5).1
        (current (construct (13 : Int)))).2 = some 0 := by decide

/-- C3 amended: `diff_to_current` performs no validity check at all.
On the archive produced by `reset`, a query through ANY commit index
that lies inside the new storage — in particular a stale index from a
Version captured before the reset — produces a value computed from the
new chain; the query yields no value only when the index lies outside
the storage. -/
theorem claim_invalid_version_amended (a : Archive M) (w : M) (s : Nat) :
    ((diff_to_current (reset a w).1 s).2 = none ↔
      (reset a w).1.storage.length ≤ s) := by
  have hwf : WF (reset a w).1 := WF_reset a w
  obtain ⟨_, _, _, _, d5⟩ := diff_spec hwf s
  rcases Nat.lt_or_ge s (reset a w).1.storage.length with hs | hs
  · rw [d5, if_pos hs]
    constructor
    · intro hx; cases hx
    · intro hx; omega
  · rw [d5, if_neg (by omega)]
    constructor
    · intro _; exact hs
    · intro _; rfl

/-- C4: the claim says every `clear_history()` call returns a fresh
valid Version, as the source's own doc comment promises; but the C++
function body ends without a return statement, so no Version is ever
produced (embedded as `none`). -/
theorem claim_clear_history_no_version (a : Archive M) :
    (clear_history a).2 = none := by
  rcases hx : (value (value a).1).2 with _ | cv <;> simp [clear_history, hx]

/-- C5: `value()` returns `v` immediately after constructing with `v`
and immediately after `reset(v)` on any existing archive, and
construction produces exactly the state `reset(v)` produces. -/
theorem claim_construction_reset (v : M) (a : Archive M) :
    (value (construct v)).2 = some v ∧
    (value (reset a v).1).2 = some v ∧
    construct v = (reset a v).1 := by
  have h3 : construct v = (reset a v).1 := by rw [construct_eq, reset_eq]
  have h1 : (value (construct v)).2 = some v := by
    rw [construct_eq]
    exact value_fresh v
  exact ⟨h1, h3 ▸ h1, h3⟩

/-- C6: after `diff_to_current` on a valid Version referencing commit
`s`, every commit on the walk from `s` to the head points directly at
the head and carries the correct cumulative delta from itself to the
head, while the head entry keeps zero delta and itself as successor. -/
theorem claim_path_compression (a : Archive M) (h : WF a) (s : Nat)
    (hs : s < a.storage.length) :
    (∀ j, j ∈ path a.storage s →
      (diff_to_current a s).1.storage[j]? =
        some ⟨a.storage.length - 1, dist a.storage j⟩) ∧
    (diff_to_current a s).1.storage[a.storage.length - 1]? =
      some ⟨a.storage.length - 1, 0⟩ := by
  obtain ⟨l1, l2, l3, l4, l5, l6⟩ := compute_spec h.1 a.storage.length s hs (by omega)
  constructor
  · intro j hj
    exact l6 j hj
  · show (compute_diff_to_current M a.storage.length a.storage s)[a.storage.length - 1]? = _
    rw [l3, head_entry h.1]

/-- C6 witness: the archive after increments `[3, 4, 7]` from `13`,
queried at the stale Version index `1`; commit `2` lies on the walk. -/
theorem claim_path_compression_witness :
    WF (run (construct (13 : Int)) ([3, 4, 7] : List Int)) ∧
    1 < (run (construct (13 : Int)) ([3, 4, 7] : List Int)).storage.length ∧
    2 ∈ path (run (construct (13 : Int)) ([3, 4, 7] : List Int)).storage 1 ∧
    (diff_to_current (run (construct (13 : Int)) ([3, 4, 7] : List Int)) 1).1.storage[2]? =
      some ⟨(run (construct (13 : Int)) ([3, 4, 7] : List Int)).storage.length - 1,
        dist (run (construct (13 : Int)) ([3, 4, 7] : List Int)).storage 2⟩ :=
  ⟨by decide, by decide, by decide,
    (claim_path_compression (run (construct (13 : Int)) ([3, 4, 7] : List Int))
      (by decide) 1 (by decide)).1 2 (by decide)⟩

/-- C7: diff queries are observationally pure: a second
`diff_to_current` after another diff query (with no mutating operation
in between) answers exactly as before, for every Version index, and
`value()` is likewise unchanged by the path compression a diff query
performs. -/
theorem claim_diff_query_pure (a : Archive M) (h : WF a) (s j : Nat) :
    (diff_to_current (diff_to_current a s).1 j).2 = (diff_to_current a j).2 ∧
    (value (diff_to_current a s).1).2 = (value a).2 := by
  obtain ⟨d1, d2, d3, d4, d5⟩ := diff_spec h s
  obtain ⟨e1, e2, e3, e4, e5⟩ := diff_spec d3 j
  obtain ⟨f1, f2, f3, f4, f5⟩ := diff_spec h j
  constructor
  · rw [e5, f5, d1]
    rcases Nat.lt_or_ge j a.storage.length with hj | hj
    · rw [if_pos hj, if_pos hj, d4]
    · rw [if_neg (by omega), if_neg (by omega)]
  · obtain ⟨g1, g2, g3, g4, g5⟩ := value_spec d3
    obtain ⟨k1, k2, k3, k4, k5⟩ := value_spec h
    rw [g5, k5, d2, d4]

/-- C7 witness: the archive after increments `[3, 4]` from `13`,
first query at index `1`, second query at index `0`. -/
theorem claim_diff_query_pure_witness :
    WF (run (construct (13 : Int)) ([3, 4] : List Int)) ∧
    (diff_to_current (diff_to_current (run (construct (13 : Int)) ([3, 4] : List Int)) 1).1 0).2 =
      (diff_to_current (run (construct (13 : Int)) ([3, 4] : List Int)) 0).2 ∧
    (value (diff_to_current (run (construct (13 : Int)) ([3, 4] : List Int)) 1).1).2 =
      (value (run (construct (13 : Int)) ([3, 4] : List Int))).2 :=
  ⟨by decide,
    (claim_diff_query_pure (run (construct (13 : Int)) ([3, 4] : List Int)) (by decide) 1 0).1,
    (claim_diff_query_pure (run (construct (13 : Int)) ([3, 4] : List Int)) (by decide) 1 0).2⟩

/-- C8: `clear_history()` leaves `value()` unchanged from its result
just before the call. -/
theorem claim_clear_history_preserves_value (a : Archive M) (h : WF a) :
    (value (clear_history a).1).2 = (value a).2 := by
  obtain ⟨c1, c2⟩ := clear_spec h
  obtain ⟨_, _, _, _, v5⟩ := value_spec h
  rw [c1, v5, construct_eq]
  exact value_fresh _

/-- C8 witness: the archive after increments `[3, 4]` from `13`. -/
theorem claim_clear_history_preserves_value_witness :
    WF (run (construct (13 : Int)) ([3, 4] : List Int)) ∧
    (value (clear_history (run (construct (13 : Int)) ([3, 4] : List Int))).1).2 =
      (value (run (construct (13 : Int)) ([3, 4] : List Int))).2 :=
  ⟨by decide,
    claim_clear_history_preserves_value (run (construct (13 : Int)) ([3, 4] : List Int))
      (by decide)⟩

/-- C9: after construction followed by any sequence of completed public
operations, the commit storage is nonempty and a commit is its own
successor exactly when it is the most recently created one — so there
is always exactly one head and no operation (including the path
compression done by diff and value queries) ever makes a non-head
commit its own successor. -/
theorem claim_unique_head (v : M) (ops : List (Op M)) :
    0 < (runOps v ops).storage.length ∧
    ∀ i c, (runOps v ops).storage[i]? = some c →
      (c.succ = i ↔ i + 1 = (runOps v ops).storage.length) := by
  have hwf : WF (runOps v ops) := WF_foldl (WF_construct v) ops
  refine ⟨hwf.1.1, ?_⟩
  intro i c hc
  obtain ⟨k1, k2, k3⟩ := chainInv_get hwf.1 hc
  have hi : i < (runOps v ops).storage.length := lt_of_lookup hc
  constructor
  · intro hsi
    by_contra hne
    have hx : i + 1 < (runOps v ops).storage.length := by omega
    have := k2 hx
    omega
  · intro hlen
    exact (k3 hlen).1

/-- C9 witness: `v = 13`, operations increment 3, diff query at 0,
clear-history, increment 4; the final head is commit index 2. -/
theorem claim_unique_head_witness :
    (runOps (13 : Int) [Op.inc 3, Op.diffq 0, Op.clear, Op.inc 4]).storage[2]? =
      some ⟨2, 0⟩ ∧
    ((⟨2, 0⟩ : Commit Int).succ = 2 ↔
      2 + 1 = (runOps (13 : Int) [Op.inc 3, Op.diffq 0, Op.clear, Op.inc 4]).storage.length) :=
  ⟨by decide,
    (claim_unique_head (13 : Int) [Op.inc 3, Op.diffq 0, Op.clear, Op.inc 4]).2 2 ⟨2, 0⟩
      (by decide)⟩

/-- C10: `increment_by` never invalidates existing Versions: a Version
index valid before the call is still inside the storage afterwards, and
its `diff_to_current` answer afterwards is its answer before the call
plus the increment. -/
theorem claim_increment_preserves_versions (a : Archive M) (d : M) (h : WF a) (s : Nat)
    (hs : s < a.storage.length) :
    s < (increment_by a d).1.storage.length ∧
    (diff_to_current (increment_by a d).1 s).2 =
      (diff_to_current a s).2.map (fun x => x + d) := by
  obtain ⟨i1, i2, i3, i4, i5, i6, i7, i8⟩ := increment_state h d
  refine ⟨by omega, ?_⟩
  obtain ⟨p1, p2, p3, p4, p5⟩ := diff_spec i7 s
  obtain ⟨q1, q2, q3, q4, q5⟩ := diff_spec h s
  rw [p5, q5, if_pos (by omega), if_pos hs, i8 s hs]
  rfl

/-- C10 witness: the archive after increments `[3, 4]` from `13`,
incremented by `7`, queried at the Version index `1`. -/
theorem claim_increment_preserves_versions_witness :
    WF (run (construct (13 : Int)) ([3, 4] : List Int)) ∧
    1 < (run (construct (13 : Int)) ([3, 4] : List Int)).storage.length ∧
    (1 < (increment_by (run (construct (13 : Int)) ([3, 4] : List Int)) 7).1.storage.length ∧
      (diff_to_current (increment_by (run (construct (13 : Int)) ([3, 4] : List Int)) 7).1 1).2 =
        (diff_to_current (run (construct (13 : Int)) ([3, 4] : List Int)) 1).2.map
          (fun x => x + 7)) :=
  ⟨by decide, by decide,
    claim_increment_preserves_versions (run (construct (13 : Int)) ([3, 4] : List Int)) 7
      (by decide) 1 (by decide)⟩

end Archived
